import Mathlib

/-!
Verification development for the TechnicalDesignAssistant repository.

The repository is a document-intake workflow tool.  Its core logic, embedded
below, consists of three pieces (all in the frontend sources):

* a value normalizer `cleanExtractedValue` and a date converter
  `formatDateForMonday` (src/frontend/src/components/ParameterValidator.tsx);
* a parameter merger `mergeParameters` together with the NewEnquiry and
  Amendment business-rule paths (src App component);
* a validation projector building the list of validatable parameters
  (src/frontend/src/components/ParameterValidator.tsx, useEffect body).

Strings are modelled as `List Char` for the character-level functions and as
Lean `String` for the parameter maps.  JavaScript objects are modelled as
association lists with the JS property-assignment semantics (`objSet`),
together with `Nodup`-key hypotheses where the behaviour on duplicate keys
would matter, since JS objects never hold duplicate keys.
-/

namespace TDA

/-! ## Character classes of the JavaScript regexes -/

/-- The single-quote character, written via its code point. -/
def singleQuote : Char := Char.ofNat 39

/-- JS regex `\s`: whitespace characters, as in the ECMAScript spec
(WhiteSpace plus LineTerminator). -/
def isJsSpace (c : Char) : Bool :=
  c == ' ' || c == '\t' || c == '\n' || c == '\r' ||
  c == '\x0b' || c == '\x0c' || c == '\u00A0' || c == '\u1680' ||
  (0x2000 ≤ c.toNat && c.toNat ≤ 0x200a) ||
  c == '\u2028' || c == '\u2029' || c == '\u202F' || c == '\u205F' ||
  c == '\u3000' || c == '\uFEFF'

/-- JS regex class `["']`. -/
def isQuoteChar (c : Char) : Bool :=
  c == '"' || c == singleQuote

/-- ECMAScript line terminators, the characters `.` does not match. -/
def isLineTerm (c : Char) : Bool :=
  c == '\n' || c == '\r' || c == '\u2028' || c == '\u2029'

/-- JS regex `.` without the `s` flag: any character except a line
terminator. -/
def isDotChar (c : Char) : Bool :=
  !(isLineTerm c)

/-- JS `String.prototype.trim`: drop leading and trailing whitespace. -/
def jsTrim (cs : List Char) : List Char :=
  ((cs.dropWhile isJsSpace).reverse.dropWhile isJsSpace).reverse

/-- Drop a maximal run of `\s` characters (the deterministic behaviour of a
greedy `\s*` whose continuation cannot match a whitespace character). -/
def dropSpaces (cs : List Char) : List Char :=
  cs.dropWhile isJsSpace

/-! ## The value normalizer `cleanExtractedValue`

Source (ParameterValidator.tsx):
```
const cleanExtractedValue = (value: string): string => {
  if (!value) return '';
  const quotedMatch = value.match(/["']?\s*:\s*["']([^"']+)["']/);
  if (quotedMatch) return quotedMatch[1].trim();
  const colonMatch = value.match(/^["']?\s*:\s*(.+?)[\s,]*$/);
  if (colonMatch && !value.match(/^\d+:\d+/)) return colonMatch[1].trim();
  return value.replace(/^["'\s]+|["'\s,]+$/g, '');
};
```
Each regex is embedded as a recursive function whose backtracking behaviour
has been resolved to a deterministic computation; the correspondence is noted
at every definition. -/

/-- The `["']?` prefix of both regexes.  If the first character is a quote the
engine consumes it; the non-consuming alternative always fails afterwards
because the following `\s*:` cannot match a quote character, so consuming is
the unique possibility. -/
def skipOptQuote (cs : List Char) : List Char :=
  match cs with
  | [] => []
  | c :: rest => if isQuoteChar c then rest else c :: rest

/-- Attempt of the regex `["']?\s*:\s*["']([^"']+)["']` at one position.
After `:` and spaces a quote must follow; the group `([^"']+)` greedily takes
the maximal run of non-quote characters, which must be non-empty and be
followed by a closing quote (shorter runs put a non-quote character where the
closing quote is required, so greedy matching is deterministic here). -/
def quotedMatchAt (cs : List Char) : Option (List Char) :=
  match dropSpaces (skipOptQuote cs) with
  | ':' :: cs3 =>
    match dropSpaces cs3 with
    | c :: cs5 =>
      if isQuoteChar c then
        if (cs5.takeWhile (fun d => !(isQuoteChar d))).isEmpty then none
        else if (cs5.dropWhile (fun d => !(isQuoteChar d))).isEmpty then none
        else some (cs5.takeWhile (fun d => !(isQuoteChar d)))
      else none
    | [] => none
  | _ => none

/-- Unanchored search for the quoted pattern: the JS engine returns the match
at the leftmost starting position. -/
def quotedSearch : List Char → Option (List Char)
  | [] => none
  | c :: rest =>
    match quotedMatchAt (c :: rest) with
    | some g => some g
    | none => quotedSearch rest

/-- The tail `(.+?)[\s,]*$` of the anchored colon regex: lazily the shortest
non-empty prefix (of dot-matchable characters) whose remainder consists only
of `[\s,]` characters. -/
def lazyDotPlus : List Char → Option (List Char)
  | [] => none
  | c :: rest =>
    if isDotChar c then
      if rest.all (fun d => isJsSpace d || d == ',') then some [c]
      else
        match lazyDotPlus rest with
        | some tl => some (c :: tl)
        | none => none
    else none

/-- Greedy `\s*` followed by `(.+?)[\s,]*$`, with backtracking: the engine
first consumes as many spaces as possible and, on failure of the rest,
backtracks one space at a time. -/
def spacesThenLazy : List Char → Option (List Char)
  | [] => none
  | c :: rest =>
    if isJsSpace c then
      match spacesThenLazy rest with
      | some x => some x
      | none => lazyDotPlus (c :: rest)
    else lazyDotPlus (c :: rest)

/-- The anchored regex `^["']?\s*:\s*(.+?)[\s,]*$` (capture group). -/
def colonFullMatch (cs : List Char) : Option (List Char) :=
  match dropSpaces (skipOptQuote cs) with
  | ':' :: cs3 => spacesThenLazy cs3
  | _ => none

/-- The guard regex `^\d+:\d+`: one or more digits, a colon, one or more
digits, at the start of the string. -/
def timePrefixMatch (cs : List Char) : Bool :=
  match cs.dropWhile Char.isDigit with
  | ':' :: rest =>
    !(cs.takeWhile Char.isDigit).isEmpty &&
      (match rest with
       | d :: _ => d.isDigit
       | [] => false)
  | _ => false

/-- Leading character class `["'\s]` of the final `replace`. -/
def stripLead (c : Char) : Bool := isQuoteChar c || isJsSpace c

/-- Trailing character class `["'\s,]` of the final `replace`. -/
def stripTrail (c : Char) : Bool := isQuoteChar c || isJsSpace c || c == ','

/-- `value.replace(/^["'\s]+|["'\s,]+$/g, '')`: removes the maximal leading
run of `["'\s]` characters and the maximal trailing run of `["'\s,]`
characters (the two alternatives can each match at most once: `^` pins the
first to position 0 and `$` pins the second to a suffix). -/
def stripQuotes (cs : List Char) : List Char :=
  ((cs.dropWhile stripLead).reverse.dropWhile stripTrail).reverse

/-- The value normalizer `cleanExtractedValue` of ParameterValidator.tsx.
`if (!value) return ''` is the empty-string test; the three regex steps
follow in source order. -/
def cleanExtractedValue (cs : List Char) : List Char :=
  if cs.isEmpty then []
  else
    match quotedSearch cs with
    | some g => jsTrim g
    | none =>
      match colonFullMatch cs with
      | some x => if timePrefixMatch cs then stripQuotes cs else jsTrim x
      | none => stripQuotes cs

end TDA

namespace TDA

/-! ## Date conversion `formatDateForMonday`

Source (ParameterValidator.tsx):
```
const formatDateForMonday = (dateString: string): string => {
  if (!dateString) return '';
  const ddMmYyyyRegex = "^(\d{2})[/ or -](\d{2})[/ or -](\d{4})$";
  const match = dateString.match(ddMmYyyyRegex);
  if (match) {
    const [, day, month, year] = match;
    return `${year}-${month}-${day}`;
  }
  const yyyyMmDdRegex = /^\d{4}-\d{2}-\d{2}$/;
  if (yyyyMmDdRegex.test(dateString)) return dateString;
  return dateString;
};
```
-/

/-- The anchored day-month-year regex of the source (two digits, a slash or dash, two digits, a slash or dash, four digits) together with the
reordering `${year}-${month}-${day}`; `none` when the regex does not match.
Note the two separators are matched independently by the character class
holding slash and dash. -/
def ddMmYyyyMatch (cs : List Char) : Option (List Char) :=
  match cs with
  | [d1, d2, s1, m1, m2, s2, y1, y2, y3, y4] =>
    if d1.isDigit && d2.isDigit && (s1 == '/' || s1 == '-') &&
       m1.isDigit && m2.isDigit && (s2 == '/' || s2 == '-') &&
       y1.isDigit && y2.isDigit && y3.isDigit && y4.isDigit then
      some [y1, y2, y3, y4, '-', m1, m2, '-', d1, d2]
    else none
  | _ => none

/-- The anchored regex `^\d{4}-\d{2}-\d{2}$`. -/
def yyyyMmDdTest (cs : List Char) : Bool :=
  match cs with
  | [y1, y2, y3, y4, s1, m1, m2, s2, d1, d2] =>
    y1.isDigit && y2.isDigit && y3.isDigit && y4.isDigit && s1 == '-' &&
    m1.isDigit && m2.isDigit && s2 == '-' && d1.isDigit && d2.isDigit
  | _ => false

/-- `formatDateForMonday` of ParameterValidator.tsx. -/
def formatDateForMonday (cs : List Char) : List Char :=
  if cs.isEmpty then []
  else
    match ddMmYyyyMatch cs with
    | some reordered => reordered
    | none => if yyyyMmDdTest cs then cs else cs

/-! ### Predicates written from the specification wording, for comparison

The spec and claim C8 speak of the formats `DD/MM/YYYY` and `DD-MM-YYYY`
(each with one uniform separator).  These predicates follow that wording and
are compared against the code regex above. -/

/-- Spec wording: the string matches `DD/MM/YYYY` (slash separators). -/
def specSlashDateForm (cs : List Char) : Bool :=
  match cs with
  | [d1, d2, s1, m1, m2, s2, y1, y2, y3, y4] =>
    d1.isDigit && d2.isDigit && s1 == '/' && m1.isDigit && m2.isDigit &&
    s2 == '/' && y1.isDigit && y2.isDigit && y3.isDigit && y4.isDigit
  | _ => false

/-- Spec wording: the string matches `DD-MM-YYYY` (dash separators). -/
def specDashDateForm (cs : List Char) : Bool :=
  match cs with
  | [d1, d2, s1, m1, m2, s2, y1, y2, y3, y4] =>
    d1.isDigit && d2.isDigit && s1 == '-' && m1.isDigit && m2.isDigit &&
    s2 == '-' && y1.isDigit && y2.isDigit && y3.isDigit && y4.isDigit
  | _ => false

/-- The shape the code regex actually accepts: day, month, year with each
separator independently a slash or a dash. -/
def mixedSepDateForm (cs : List Char) : Bool :=
  match cs with
  | [d1, d2, s1, m1, m2, s2, y1, y2, y3, y4] =>
    d1.isDigit && d2.isDigit && (s1 == '/' || s1 == '-') &&
    m1.isDigit && m2.isDigit && (s2 == '/' || s2 == '-') &&
    y1.isDigit && y2.isDigit && y3.isDigit && y4.isDigit
  | _ => false

/-- Reordering of a ten-character date shape to `YYYY-MM-DD`; identity on any
other list. -/
def reorderDate (cs : List Char) : List Char :=
  match cs with
  | [d1, d2, _, m1, m2, _, y1, y2, y3, y4] =>
    [y1, y2, y3, y4, '-', m1, m2, '-', d1, d2]
  | _ => cs

/-! ## Parameter sets, provenance and the merger

Source: the App component (src/unnamed/part_006).  A `Parameter` object is a
string-keyed map of strings; the provenance map assigns each key one of the
three source tags.  JS objects are modelled as association lists; `objSet`
is JS property assignment: it updates the value of an existing key in place
and appends a missing key at the end. -/

/-- Provenance tags, `'Email Content' | 'Monday CRM' | 'Business Rule'`. -/
inductive Source where
  | emailContent
  | mondayCRM
  | businessRule
deriving DecidableEq, Repr

/-- A parameter set: an ordered string-keyed map of string values. -/
abbrev ParamSet := List (String × String)

/-- A provenance map. -/
abbrev SourceMap := List (String × Source)

/-- JS property assignment `obj[k] = v`: update the first (for a JS object,
the only) occurrence of the key in place, or append the key at the end. -/
def objSet {α : Type} : List (String × α) → String → α → List (String × α)
  | [], k, v => [(k, v)]
  | (k1, v1) :: rest, k, v =>
    if k1 = k then (k, v) :: rest else (k1, v1) :: objSet rest k v

/-- Key lookup `obj[k]`, `none` for an absent key. -/
def getVal {α : Type} : List (String × α) → String → Option α
  | [], _ => none
  | (k1, v1) :: rest, k => if k1 = k then some v1 else getVal rest k

/-- `Object.keys`. -/
def keys {α : Type} (m : List (String × α)) : List String :=
  m.map Prod.fst

/-- The constant `TAPEREDPLUS_ASSIGNMENT_TEXT`. -/
def taperedplusAssignmentText : String := "To be assigned by TaperedPlus"

/-- The fixed overridable field list of `mergeParameters`. -/
def overridableParameters : List String :=
  ["Email Subject", "Date Received", "Hour Received", "Target U-Value",
   "Target Min U-Value", "Fall of Tapered", "Tapered Insulation", "Decking"]

/-- Lowercasing as `String.prototype.toLowerCase`, character by character. -/
def jsLower (cs : List Char) : List Char :=
  cs.map Char.toLower

/-- `const clean = (v?: string) => v?.trim().toLowerCase()`. -/
def clean (v : Option String) : Option String :=
  v.map (fun s => (jsLower (jsTrim s.data)).asString)

/-- `isMissing` of `mergeParameters`: `undefined` and the empty string are
missing (`if (!v) return true`), as are the two not-found sentinels and the
deferral sentinel after trimming and lowercasing. -/
def isMissing (v : Option String) : Bool :=
  match v with
  | none => true
  | some s =>
    if s = "" then true
    else
      let val := (jsLower (jsTrim s.data)).asString
      val == "not found" || val == "not provided" ||
        val == "to be assigned by taperedplus"

/-- The body of the `Object.entries(email).forEach` loop of
`mergeParameters`, acting on the accumulated `(merged, sources)` pair for one
overlay entry `e`. -/
def mergeStep (monday : ParamSet) (acc : ParamSet × SourceMap)
    (e : String × String) : ParamSet × SourceMap :=
  if e.1 ∈ overridableParameters then
    if e.1 = "Email Subject" ∧ isMissing (some e.2) = false then
      (objSet acc.1 e.1 e.2, objSet acc.2 e.1 Source.emailContent)
    else if e.1 ≠ "Email Subject" ∧ isMissing (some e.2) = false ∧
        clean (some e.2) ≠ clean (getVal monday e.1) then
      (objSet acc.1 e.1 e.2, objSet acc.2 e.1 Source.emailContent)
    else acc
  else acc

/-- The initial provenance map: every key of `monday` tagged `'Monday CRM'`
(the `Object.keys(monday).reduce` of the source). -/
def initialSources (monday : ParamSet) : SourceMap :=
  (keys monday).foldl (fun acc k => objSet acc k Source.mondayCRM) []

/-- `mergeParameters` of the App component: overlay the email parameters on
the Monday parameters. -/
def mergeParameters (monday : ParamSet) (email : Option ParamSet) :
    ParamSet × SourceMap :=
  match email with
  | none => (monday, initialSources monday)
  | some em => em.foldl (mergeStep monday) (monday, initialSources monday)

/-! ## The NewEnquiry and Amendment paths

Source: `handleFileUpload` (no-project-name branch) and
`handleProjectSelected` of the App component. -/

/-- The NewEnquiry parameter defaults: spread of `initialParams` with the
three forced fields, in the order of the object literal. -/
def newEnquiryDefaults (initialParams : ParamSet) : ParamSet :=
  objSet (objSet (objSet initialParams "Reason for Change" "New Enquiry")
    "Drawing Reference" taperedplusAssignmentText)
    "Revision" taperedplusAssignmentText

/-- The per-key tag of the NewEnquiry source map (`emailOnlySources`). -/
def newEnquirySourceTag (k : String) : Source :=
  if k = "Drawing Reference" ∨ k = "Revision" then Source.businessRule
  else Source.emailContent

/-- The NewEnquiry source map: every key of the updated parameters tagged by
`newEnquirySourceTag`. -/
def newEnquirySources (updatedParams : ParamSet) : SourceMap :=
  (keys updatedParams).foldl
    (fun acc k => objSet acc k (newEnquirySourceTag k)) []

/-- The NewEnquiry path of `handleFileUpload`: force the three fields, then
build the source map. -/
def handleFileUploadNew (initialParams : ParamSet) : ParamSet × SourceMap :=
  (newEnquiryDefaults initialParams,
   newEnquirySources (newEnquiryDefaults initialParams))

/-- The Amendment path of `handleProjectSelected`: force
`"Reason for Change"` to `"Amendment"` on the board parameters, then merge
with the email parameters. -/
def handleProjectSelectedAmendment (boardParams : ParamSet)
    (emailParams : Option ParamSet) : ParamSet × SourceMap :=
  mergeParameters (objSet boardParams "Reason for Change" "Amendment")
    emailParams

/-! ### Predicate written from the specification wording, for comparison

Claim C4 defines a value as missing exactly when its lowercased, trimmed
form is one of the three sentinel strings; the code additionally treats the
empty string as missing. -/

/-- Missing-value test as worded in claim C4 (no empty-string case). -/
def specMissing (v : String) : Bool :=
  (jsLower (jsTrim v.data)).asString == "not found" ||
  (jsLower (jsTrim v.data)).asString == "not provided" ||
  (jsLower (jsTrim v.data)).asString == "to be assigned by taperedplus"

/-! ## The validation projector

Source: the `useEffect` body of `ParameterValidator` and the Monday column
mapping (monday-columns). -/

/-- `MONDAY_COLUMN_MAPPING` (lookup of an unknown key yields the empty
string; the component only looks up the five known keys). -/
def mondayColumnMapping (k : String) : String :=
  if k = "Date Received" then "Date Received"
  else if k = "Hour Received" then "Hour Received"
  else if k = "Post Code" then "Zip Code"
  else if k = "Drawing Reference" then "TP Ref"
  else if k = "New Enq / Amend" then "New Enq / Amend"
  else ""

/-- One record of the validatable subset. -/
structure ValidatableParameter where
  key : String
  displayName : String
  value : String
  mondayColumnTitle : String
  editable : Bool
deriving DecidableEq, Repr

/-- The normalizer on `String`. -/
def cleanS (s : String) : String :=
  (cleanExtractedValue s.data).asString

/-- `str.split('_')[0]`: the prefix before the first underscore (the whole
string when there is none). -/
def splitUnderscoreHead (s : String) : String :=
  (s.data.takeWhile (fun c => c != '_')).asString

/-- The derived TP-Ref value: the drawing reference of the parameter set,
normalized and truncated at the first underscore. -/
def tpRefOf (p : ParamSet) : String :=
  splitUnderscoreHead (cleanS ((getVal p "Drawing Reference").getD ""))

/-- The fixed four records of the `useEffect` body of `ParameterValidator`
(the `validatableParams` array literal).  The enquiry type is
`some "New Enquiry"`, `some "Amendment"` or `none`, exactly the
`'New Enquiry' | 'Amendment' | null` of the source. -/
def baseValidatable (extractedParams : ParamSet)
    (enquiryType : Option String) : List ValidatableParameter :=
  [⟨"Date Received", "Date Received",
    cleanS ((getVal extractedParams "Date Received").getD ""),
    mondayColumnMapping "Date Received", true⟩,
   ⟨"Hour Received", "Hour Received",
    cleanS ((getVal extractedParams "Hour Received").getD ""),
    mondayColumnMapping "Hour Received", true⟩,
   ⟨"Post Code", "Post Code",
    cleanS ((getVal extractedParams "Post Code").getD ""),
    mondayColumnMapping "Post Code", true⟩,
   ⟨"New Enq / Amend", "New Enq / Amend", enquiryType.getD "",
    mondayColumnMapping "New Enq / Amend", false⟩]

/-- The `useEffect` body of `ParameterValidator`: the fixed four records,
plus the derived drawing-reference record pushed in the Amendment case when
the raw drawing reference is truthy and the derived TP Ref passes the
sentinel checks. -/
def buildValidatableParams (extractedParams : ParamSet)
    (enquiryType : Option String) : List ValidatableParameter :=
  if enquiryType = some "Amendment" ∧
      (getVal extractedParams "Drawing Reference").getD "" ≠ "" then
    if tpRefOf extractedParams ≠ "" ∧
        tpRefOf extractedParams ≠ "Not provided" ∧
        tpRefOf extractedParams ≠ "Not found" then
      baseValidatable extractedParams enquiryType ++
        [⟨"Drawing Reference", "TP Ref", tpRefOf extractedParams,
          mondayColumnMapping "Drawing Reference", false⟩]
    else baseValidatable extractedParams enquiryType
  else baseValidatable extractedParams enquiryType

end TDA
namespace TDA

/-! ## Helper lemmas about association lists -/

@[simp] theorem keys_nil {α : Type} : keys ([] : List (String × α)) = [] :=
  rfl

@[simp] theorem keys_cons {α : Type} (p : String × α)
    (rest : List (String × α)) : keys (p :: rest) = p.1 :: keys rest :=
  rfl

theorem getVal_objSet_self {α : Type} (m : List (String × α)) (k : String)
    (v : α) : getVal (objSet m k v) k = some v := by
  induction m with
  | nil => simp [objSet, getVal]
  | cons p rest ih =>
    obtain ⟨k1, v1⟩ := p
    by_cases h : k1 = k
    · simp [objSet, h, getVal]
    · simp [objSet, h, getVal, ih]

theorem getVal_objSet_ne {α : Type} (m : List (String × α)) (k x : String)
    (v : α) (hx : x ≠ k) : getVal (objSet m k v) x = getVal m x := by
  induction m with
  | nil => simp [objSet, getVal, Ne.symm hx]
  | cons p rest ih =>
    obtain ⟨k1, v1⟩ := p
    by_cases h : k1 = k
    · subst h
      simp [objSet, getVal, Ne.symm hx]
    · simp [objSet, h, getVal, ih]

theorem mem_keys_objSet {α : Type} (m : List (String × α)) (k x : String)
    (v : α) : x ∈ keys (objSet m k v) ↔ x ∈ keys m ∨ x = k := by
  induction m with
  | nil => simp [objSet]
  | cons p rest ih =>
    obtain ⟨k1, v1⟩ := p
    by_cases h : k1 = k
    · subst h
      simp [objSet]
      tauto
    · simp [objSet, h, ih]
      tauto

theorem keys_nodup_objSet {α : Type} (m : List (String × α)) (k : String)
    (v : α) (hm : (keys m).Nodup) : (keys (objSet m k v)).Nodup := by
  induction m with
  | nil => simp [objSet]
  | cons p rest ih =>
    obtain ⟨k1, v1⟩ := p
    simp only [keys_cons, List.nodup_cons] at hm
    by_cases h : k1 = k
    · subst h
      simpa [objSet] using hm
    · simp only [objSet, if_neg h, keys_cons, List.nodup_cons]
      constructor
      · intro hmem
        rcases (mem_keys_objSet rest k k1 v).1 hmem with h1 | h1
        · exact hm.1 h1
        · exact h h1
      · exact ih hm.2

theorem getVal_eq_none_iff {α : Type} (m : List (String × α)) (k : String) :
    getVal m k = none ↔ k ∉ keys m := by
  induction m with
  | nil => simp [getVal]
  | cons p rest ih =>
    obtain ⟨k1, v1⟩ := p
    by_cases h : k1 = k
    · subst h
      simp [getVal]
    · simp [getVal, h, ih, Ne.symm h]

theorem getVal_isSome_of_mem {α : Type} (m : List (String × α)) (k : String)
    (h : k ∈ keys m) : ∃ v, getVal m k = some v := by
  cases hv : getVal m k with
  | none => exact absurd ((getVal_eq_none_iff m k).1 hv) (by simpa using h)
  | some v => exact ⟨v, rfl⟩

/-- Folding a tagged insertion over a list of keys: lookup in the result
finds the tag of any key of the list, and otherwise looks in the start
accumulator. -/
theorem getVal_foldl_objSet {α : Type} (f : String → α) :
    ∀ (ks : List String) (acc : List (String × α)) (x : String),
      getVal (ks.foldl (fun a k => objSet a k (f k)) acc) x =
        if x ∈ ks then some (f x) else getVal acc x := by
  intro ks
  induction ks with
  | nil => simp
  | cons k rest ih =>
    intro acc x
    by_cases hx : x ∈ rest
    · simp [List.foldl_cons, ih, hx]
    · by_cases hxk : x = k
      · subst hxk
        simp [List.foldl_cons, ih, hx, getVal_objSet_self]
      · simp [List.foldl_cons, ih, hx, hxk,
          getVal_objSet_ne _ _ _ _ hxk]

theorem mem_keys_foldl_objSet {α : Type} (f : String → α) :
    ∀ (ks : List String) (acc : List (String × α)) (x : String),
      x ∈ keys (ks.foldl (fun a k => objSet a k (f k)) acc) ↔
        x ∈ keys acc ∨ x ∈ ks := by
  intro ks
  induction ks with
  | nil => simp
  | cons k rest ih =>
    intro acc x
    simp [List.foldl_cons, ih, mem_keys_objSet]
    tauto

theorem keys_nodup_foldl_objSet {α : Type} (f : String → α) :
    ∀ (ks : List String) (acc : List (String × α)),
      (keys acc).Nodup →
      (keys (ks.foldl (fun a k => objSet a k (f k)) acc)).Nodup := by
  intro ks
  induction ks with
  | nil =>
    intro acc h
    simpa using h
  | cons k rest ih =>
    intro acc hacc
    exact ih _ (keys_nodup_objSet acc k (f k) hacc)

theorem getVal_initialSources (monday : ParamSet) (x : String) :
    getVal (initialSources monday) x =
      if x ∈ keys monday then some Source.mondayCRM else none := by
  simpa [initialSources] using
    getVal_foldl_objSet (fun _ => Source.mondayCRM) (keys monday) [] x

theorem mem_keys_initialSources (monday : ParamSet) (x : String) :
    x ∈ keys (initialSources monday) ↔ x ∈ keys monday := by
  simpa [initialSources] using
    mem_keys_foldl_objSet (fun _ => Source.mondayCRM) (keys monday) [] x

theorem keys_nodup_initialSources (monday : ParamSet) :
    (keys (initialSources monday)).Nodup := by
  simpa [initialSources] using
    keys_nodup_foldl_objSet (fun _ => Source.mondayCRM) (keys monday) []
      (by simp)

end TDA
namespace TDA

/-! ## Characterization of the merge loop -/

/-- The condition under which an overlay entry wins in `mergeParameters`:
the key is overridable, and either it is the email subject with a
non-missing value, or it is another key with a non-missing value whose
cleaned form differs from the cleaned base value. -/
def winCond (monday : ParamSet) (k v : String) : Prop :=
  k ∈ overridableParameters ∧
    ((k = "Email Subject" ∧ isMissing (some v) = false) ∨
     (k ≠ "Email Subject" ∧ isMissing (some v) = false ∧
       clean (some v) ≠ clean (getVal monday k)))

instance (monday : ParamSet) (k v : String) :
    Decidable (winCond monday k v) := by
  unfold winCond
  infer_instance

theorem fst_mem_keys {α : Type} {m : List (String × α)} {p : String × α}
    (h : p ∈ m) : p.1 ∈ keys m :=
  List.mem_map_of_mem Prod.fst h

theorem mergeStep_eq (monday : ParamSet) (acc : ParamSet × SourceMap)
    (e : String × String) :
    mergeStep monday acc e =
      if winCond monday e.1 e.2 then
        (objSet acc.1 e.1 e.2, objSet acc.2 e.1 Source.emailContent)
      else acc := by
  unfold mergeStep winCond
  by_cases h1 : e.1 ∈ overridableParameters
  · by_cases h2 : e.1 = "Email Subject" ∧ isMissing (some e.2) = false
    · simp [h1, h2]
    · by_cases h3 : e.1 ≠ "Email Subject" ∧ isMissing (some e.2) = false ∧
          clean (some e.2) ≠ clean (getVal monday e.1)
      · simp [h1, h2, h3]
      · simp [h1, h2, h3]
  · simp [h1]

theorem mergeStep_getVal_ne (monday : ParamSet) (acc : ParamSet × SourceMap)
    (e : String × String) (x : String) (hx : x ≠ e.1) :
    getVal (mergeStep monday acc e).1 x = getVal acc.1 x ∧
    getVal (mergeStep monday acc e).2 x = getVal acc.2 x := by
  rw [mergeStep_eq]
  split
  · exact ⟨getVal_objSet_ne _ _ _ _ hx, getVal_objSet_ne _ _ _ _ hx⟩
  · exact ⟨rfl, rfl⟩

/-- The merge loop never changes the pair at a non-overridable key. -/
theorem foldl_mergeStep_getVal_frame (monday : ParamSet) (x : String)
    (hx : x ∉ overridableParameters) :
    ∀ (em : List (String × String)) (acc : ParamSet × SourceMap),
      getVal ((em.foldl (mergeStep monday) acc)).1 x = getVal acc.1 x ∧
      getVal ((em.foldl (mergeStep monday) acc)).2 x = getVal acc.2 x := by
  intro em
  induction em with
  | nil => exact fun acc => ⟨rfl, rfl⟩
  | cons e rest ih =>
    intro acc
    rw [List.foldl_cons]
    by_cases he : e.1 = x
    · have hs : mergeStep monday acc e = acc := by
        rw [mergeStep_eq, if_neg]
        intro hw
        exact hx (he ▸ hw.1)
      rw [hs]
      exact ih acc
    · have h := ih (mergeStep monday acc e)
      have h2 := mergeStep_getVal_ne monday acc e x (fun hh => he hh.symm)
      exact ⟨h.1.trans h2.1, h.2.trans h2.2⟩

/-- The merge loop never changes the pair at a key that appears in none of
the overlay entries. -/
theorem foldl_mergeStep_getVal_notmem (monday : ParamSet) (x : String) :
    ∀ (em : List (String × String)) (acc : ParamSet × SourceMap),
      (∀ e ∈ em, e.1 ≠ x) →
      getVal ((em.foldl (mergeStep monday) acc)).1 x = getVal acc.1 x ∧
      getVal ((em.foldl (mergeStep monday) acc)).2 x = getVal acc.2 x := by
  intro em
  induction em with
  | nil => exact fun acc _ => ⟨rfl, rfl⟩
  | cons e rest ih =>
    intro acc hne
    rw [List.foldl_cons]
    have h := ih (mergeStep monday acc e) (fun f hf => hne f (by simp [hf]))
    have h2 := mergeStep_getVal_ne monday acc e x
      (fun hh => hne e (by simp) hh.symm)
    exact ⟨h.1.trans h2.1, h.2.trans h2.2⟩

/-- The value-level behaviour of the merge loop at a key holding exactly one
overlay entry: the entry wins exactly under `winCond`. -/
theorem foldl_mergeStep_getVal_mem (monday : ParamSet) (k v : String) :
    ∀ (em : List (String × String)), (keys em).Nodup → (k, v) ∈ em →
      ∀ acc : ParamSet × SourceMap,
      (winCond monday k v →
        getVal ((em.foldl (mergeStep monday) acc)).1 k = some v ∧
        getVal ((em.foldl (mergeStep monday) acc)).2 k =
          some Source.emailContent) ∧
      (¬ winCond monday k v →
        getVal ((em.foldl (mergeStep monday) acc)).1 k = getVal acc.1 k ∧
        getVal ((em.foldl (mergeStep monday) acc)).2 k = getVal acc.2 k) := by
  intro em
  induction em with
  | nil => intro _ h; cases h
  | cons e rest ih =>
    intro hnd hmem acc
    simp only [keys_cons, List.nodup_cons] at hnd
    rw [List.foldl_cons]
    rcases List.mem_cons.1 hmem with h1 | h1
    · -- the entry is the head
      have hk : e.1 = k := by rw [← h1]
      have hrest : ∀ f ∈ rest, f.1 ≠ k := by
        intro f hf hfk
        apply hnd.1
        rw [hk, ← hfk]
        exact fst_mem_keys hf
      constructor
      · intro hw
        have hs : mergeStep monday acc e =
            (objSet acc.1 k v, objSet acc.2 k Source.emailContent) := by
          rw [mergeStep_eq, if_pos (by rw [← h1]; exact hw), ← h1]
        rw [hs]
        have hpres := foldl_mergeStep_getVal_notmem monday k rest
          (objSet acc.1 k v, objSet acc.2 k Source.emailContent) hrest
        exact ⟨hpres.1.trans (getVal_objSet_self _ _ _),
               hpres.2.trans (getVal_objSet_self _ _ _)⟩
      · intro hw
        have hs : mergeStep monday acc e = acc := by
          rw [mergeStep_eq, if_neg (by rw [← h1]; exact hw)]
        rw [hs]
        exact foldl_mergeStep_getVal_notmem monday k rest acc hrest
    · -- the entry is in the tail
      have hk : e.1 ≠ k := by
        intro hek
        apply hnd.1
        rw [hek]
        exact fst_mem_keys h1
      have h2 := mergeStep_getVal_ne monday acc e k (fun hh => hk hh.symm)
      have h3 := ih hnd.2 h1 (mergeStep monday acc e)
      exact ⟨fun hw => h3.1 hw,
             fun hw => ⟨(h3.2 hw).1.trans h2.1, (h3.2 hw).2.trans h2.2⟩⟩

theorem mergeStep_mem_keys (monday : ParamSet) (acc : ParamSet × SourceMap)
    (e : String × String) (x : String) :
    x ∈ keys (mergeStep monday acc e).1 ↔
      x ∈ keys acc.1 ∨ (x = e.1 ∧ winCond monday e.1 e.2) := by
  rw [mergeStep_eq]
  split
  · next hw =>
    rw [mem_keys_objSet]
    exact ⟨fun h => h.imp id (fun h1 => ⟨h1, hw⟩), fun h => h.imp id And.left⟩
  · next hw =>
    exact ⟨fun h => Or.inl h, fun h => h.elim id (fun h1 => absurd h1.2 hw)⟩

/-- Key membership in the merged map after the merge loop: the keys of the
accumulator plus every overlay key holding a winning entry. -/
theorem foldl_mergeStep_mem_keys (monday : ParamSet) :
    ∀ (em : List (String × String)) (acc : ParamSet × SourceMap)
      (x : String),
      x ∈ keys ((em.foldl (mergeStep monday) acc)).1 ↔
        x ∈ keys acc.1 ∨ ∃ v, (x, v) ∈ em ∧ winCond monday x v := by
  intro em
  induction em with
  | nil => simp
  | cons e rest ih =>
    intro acc x
    rw [List.foldl_cons, ih, mergeStep_mem_keys]
    constructor
    · rintro ((h | ⟨hx, hw⟩) | ⟨v, hv, hw⟩)
      · exact Or.inl h
      · subst hx
        refine Or.inr ⟨e.2, ?_, hw⟩
        rw [Prod.mk.eta]
        exact List.mem_cons_self e rest
      · exact Or.inr ⟨v, List.mem_cons_of_mem _ hv, hw⟩
    · rintro (h | ⟨v, hv, hw⟩)
      · exact Or.inl (Or.inl h)
      · rcases List.mem_cons.1 hv with h1 | h1
        · have hx : x = e.1 := by rw [← h1]
          have hv2 : v = e.2 := by rw [← h1]
          refine Or.inl (Or.inr ⟨hx, ?_⟩)
          rw [← hx, ← hv2]
          exact hw
        · exact Or.inr ⟨v, h1, hw⟩

/-- Generic preservation of a predicate along a left fold. -/
theorem foldl_preserve {α β : Type} {P : β → Prop} (f : β → α → β)
    (hf : ∀ b a, P b → P (f b a)) :
    ∀ (l : List α) (b : β), P b → P (l.foldl f b) := by
  intro l
  induction l with
  | nil => exact fun b h => h
  | cons a rest ih => exact fun b h => ih (f b a) (hf b a h)

/-- The frame property of the merge: a base key outside the overridable list
keeps its base value and its board tag, for any overlay. -/
theorem merge_frame (base : ParamSet) (email : Option ParamSet) (k : String)
    (h1 : k ∈ keys base) (h2 : k ∉ overridableParameters) :
    getVal (mergeParameters base email).1 k = getVal base k ∧
    getVal (mergeParameters base email).2 k = some Source.mondayCRM := by
  cases email with
  | none =>
    refine ⟨rfl, ?_⟩
    rw [show (mergeParameters base none).2 = initialSources base from rfl,
      getVal_initialSources]
    simp [h1]
  | some em =>
    have h := foldl_mergeStep_getVal_frame base k h2 em
      (base, initialSources base)
    refine ⟨h.1, h.2.trans ?_⟩
    rw [getVal_initialSources]
    simp [h1]

end TDA
namespace TDA

/-! ## Lemmas about the value normalizer -/

theorem mem_of_mem_dropWhile {p : Char → Bool} :
    ∀ {cs : List Char} {x : Char}, x ∈ cs.dropWhile p → x ∈ cs := by
  intro cs
  induction cs with
  | nil => intro x h; exact h
  | cons c rest ih =>
    intro x h
    by_cases hp : p c
    · rw [List.dropWhile_cons_of_pos hp] at h
      exact List.mem_cons_of_mem _ (ih h)
    · rwa [List.dropWhile_cons_of_neg hp] at h

theorem mem_of_mem_skipOptQuote {cs : List Char} {x : Char}
    (h : x ∈ skipOptQuote cs) : x ∈ cs := by
  cases cs with
  | nil => exact h
  | cons c rest =>
    rw [show skipOptQuote (c :: rest) =
      if isQuoteChar c then rest else c :: rest from rfl] at h
    by_cases hq : isQuoteChar c
    · rw [if_pos hq] at h
      exact List.mem_cons_of_mem _ h
    · rwa [if_neg hq] at h

theorem quotedMatchAt_eq_none {cs : List Char} (h : ':' ∉ cs) :
    quotedMatchAt cs = none := by
  unfold quotedMatchAt
  split
  · next cs3 heq =>
    exfalso
    apply h
    have hm : ':' ∈ dropSpaces (skipOptQuote cs) := by
      rw [heq]
      exact List.mem_cons_self _ _
    exact mem_of_mem_skipOptQuote (mem_of_mem_dropWhile hm)
  · rfl

theorem colonFullMatch_eq_none {cs : List Char} (h : ':' ∉ cs) :
    colonFullMatch cs = none := by
  unfold colonFullMatch
  split
  · next cs3 heq =>
    exfalso
    apply h
    have hm : ':' ∈ dropSpaces (skipOptQuote cs) := by
      rw [heq]
      exact List.mem_cons_self _ _
    exact mem_of_mem_skipOptQuote (mem_of_mem_dropWhile hm)
  · rfl

theorem quotedSearch_eq_none {cs : List Char} (h : ':' ∉ cs) :
    quotedSearch cs = none := by
  induction cs with
  | nil => rfl
  | cons c rest ih =>
    have h1 : ':' ∉ rest := fun hm => h (List.mem_cons_of_mem _ hm)
    unfold quotedSearch
    rw [quotedMatchAt_eq_none h]
    exact ih h1

theorem dropWhile_head_false {p : Char → Bool} :
    ∀ l : List Char,
      l.dropWhile p = [] ∨
        ∃ c rest, l.dropWhile p = c :: rest ∧ p c = false := by
  intro l
  induction l with
  | nil => exact Or.inl rfl
  | cons c rest ih =>
    by_cases hp : p c
    · rw [List.dropWhile_cons_of_pos hp]
      exact ih
    · rw [List.dropWhile_cons_of_neg hp]
      exact Or.inr ⟨c, rest, rfl, by simpa using hp⟩

theorem dropWhile_dropWhile {p : Char → Bool} (l : List Char) :
    (l.dropWhile p).dropWhile p = l.dropWhile p := by
  rcases dropWhile_head_false (p := p) l with h | ⟨c, rest, h, hc⟩
  · rw [h]
    rfl
  · rw [h, List.dropWhile_cons_of_neg (by simp [hc])]

/-- Decomposition: the lead-stripped list is the fully stripped list followed
by the stripped trailing run. -/
theorem stripQuotes_decomp (cs : List Char) :
    cs.dropWhile stripLead =
      stripQuotes cs ++
        ((cs.dropWhile stripLead).reverse.takeWhile stripTrail).reverse := by
  have h1 : (cs.dropWhile stripLead).reverse =
      (cs.dropWhile stripLead).reverse.takeWhile stripTrail ++
        (cs.dropWhile stripLead).reverse.dropWhile stripTrail :=
    (List.takeWhile_append_dropWhile stripTrail
      ((cs.dropWhile stripLead).reverse)).symm
  calc cs.dropWhile stripLead
      = (cs.dropWhile stripLead).reverse.reverse := (List.reverse_reverse _).symm
    _ = ((cs.dropWhile stripLead).reverse.takeWhile stripTrail ++
          (cs.dropWhile stripLead).reverse.dropWhile stripTrail).reverse := by
        rw [← h1]
    _ = stripQuotes cs ++
          ((cs.dropWhile stripLead).reverse.takeWhile stripTrail).reverse := by
        rw [List.reverse_append]
        rfl

theorem stripQuotes_dropWhile_lead (cs : List Char) :
    (stripQuotes cs).dropWhile stripLead = stripQuotes cs := by
  cases hb : stripQuotes cs with
  | nil => rfl
  | cons c rest =>
    have hdec := stripQuotes_decomp cs
    rw [hb] at hdec
    rcases dropWhile_head_false (p := stripLead) cs with h | ⟨c2, rest2, h, hc⟩
    · rw [h] at hdec
      exact absurd hdec.symm (by simp)
    · rw [h, List.cons_append] at hdec
      injection hdec with h4 h5
      have hc2 : stripLead c = false := h4 ▸ hc
      rw [List.dropWhile_cons_of_neg (by simp [hc2])]

theorem stripQuotes_dropWhile_trail (cs : List Char) :
    (stripQuotes cs).reverse.dropWhile stripTrail = (stripQuotes cs).reverse := by
  unfold stripQuotes
  rw [List.reverse_reverse]
  exact dropWhile_dropWhile _

theorem stripQuotes_idem (cs : List Char) :
    stripQuotes (stripQuotes cs) = stripQuotes cs := by
  have h : stripQuotes (stripQuotes cs) =
      (((stripQuotes cs).dropWhile stripLead).reverse.dropWhile
        stripTrail).reverse := rfl
  rw [h, stripQuotes_dropWhile_lead, stripQuotes_dropWhile_trail,
    List.reverse_reverse]

theorem mem_of_mem_stripQuotes {cs : List Char} {x : Char}
    (h : x ∈ stripQuotes cs) : x ∈ cs := by
  unfold stripQuotes at h
  rw [List.mem_reverse] at h
  have h2 := mem_of_mem_dropWhile h
  rw [List.mem_reverse] at h2
  exact mem_of_mem_dropWhile h2

/-- On a colon-free string the normalizer is exactly the final
quote-stripping step. -/
theorem cleanExtractedValue_of_no_colon {cs : List Char} (h : ':' ∉ cs) :
    cleanExtractedValue cs = stripQuotes cs := by
  cases cs with
  | nil => rfl
  | cons c rest =>
    unfold cleanExtractedValue
    rw [quotedSearch_eq_none h, colonFullMatch_eq_none h]
    rfl

end TDA
namespace TDA

/-! ## Claim C1: idempotence of the value normalizer -/

/-- Claim C1, counterexample: the normalizer is not idempotent.  On the
input `::a` the anchored colon rule captures `:a`, and a second application
strips again to `a`. -/
theorem C1_counterexample :
    cleanExtractedValue (cleanExtractedValue [':', ':', 'a']) ≠
      cleanExtractedValue [':', ':', 'a'] := by
  decide

/-- Claim C1, amended: the value normalizer is idempotent on every input
that contains no colon character (on such inputs only the final
quote-stripping step can act, and that step is idempotent); as witnessed by
the counterexample, idempotence fails in general on inputs with colons. -/
theorem C1_normalize_idempotent_on_colon_free (cs : List Char)
    (h : ':' ∉ cs) :
    cleanExtractedValue (cleanExtractedValue cs) = cleanExtractedValue cs := by
  rw [cleanExtractedValue_of_no_colon h]
  have h2 : ':' ∉ stripQuotes cs := fun hm => h (mem_of_mem_stripQuotes hm)
  rw [cleanExtractedValue_of_no_colon h2, stripQuotes_idem]

/-- Claim C1, witness: the amended theorem applied to a concrete colon-free
input. -/
theorem C1_witness :
    cleanExtractedValue
        (cleanExtractedValue [' ', '"', 'h', 'e', 'l', 'l', 'o', ',', ' ']) =
      cleanExtractedValue [' ', '"', 'h', 'e', 'l', 'l', 'o', ',', ' '] :=
  C1_normalize_idempotent_on_colon_free
    [' ', '"', 'h', 'e', 'l', 'l', 'o', ',', ' '] (by decide)

/-! ## Claim C9: the HH:MM guard of the normalizer -/

/-- Claim C9: the normalizer never applies the colon-strip rule to a value
matching the time-like pattern (one or more digits, a colon, one or more
digits at the start): on such values the result is what the quoted rule or
the final quote-stripping step yields, the colon rule being disabled; in
particular `normalize` leaves the value `14:30` unchanged. -/
theorem C9_time_guard (cs : List Char) (h : timePrefixMatch cs = true) :
    (cleanExtractedValue cs =
      match quotedSearch cs with
      | some g => jsTrim g
      | none => stripQuotes cs) ∧
    cleanExtractedValue ['1', '4', ':', '3', '0'] =
      ['1', '4', ':', '3', '0'] := by
  constructor
  · have hne : cs ≠ [] := by
      intro hnil
      rw [hnil] at h
      exact absurd h (by decide)
    unfold cleanExtractedValue
    rw [if_neg (by simpa using hne)]
    cases hq : quotedSearch cs with
    | some g => rfl
    | none =>
      cases hcm : colonFullMatch cs with
      | some x =>
        show (if timePrefixMatch cs = true then stripQuotes cs
          else jsTrim x) = stripQuotes cs
        rw [if_pos h]
      | none => rfl
  · decide

/-- Claim C9, witness: the theorem applied to the concrete time value
`09:15`. -/
theorem C9_witness :
    cleanExtractedValue ['0', '9', ':', '1', '5'] =
      match quotedSearch ['0', '9', ':', '1', '5'] with
      | some g => jsTrim g
      | none => stripQuotes ['0', '9', ':', '1', '5'] :=
  (C9_time_guard ['0', '9', ':', '1', '5'] (by decide)).1

end TDA
namespace TDA

/-! ## Claim C8: the storage-date conversion -/

/-- The code regex matches exactly the mixed-separator day-month-year shape,
and its reordering is `reorderDate`. -/
theorem ddMmYyyyMatch_eq (cs : List Char) :
    ddMmYyyyMatch cs =
      if mixedSepDateForm cs then some (reorderDate cs) else none := by
  unfold ddMmYyyyMatch mixedSepDateForm reorderDate
  split
  · split <;> rfl
  · rfl

/-- A string of the storage shape `YYYY-MM-DD` is never of the
day-month-year shape: the third character is a digit in the former and a
separator in the latter. -/
theorem yyyy_not_mixed {cs : List Char} (h : yyyyMmDdTest cs = true) :
    mixedSepDateForm cs = false := by
  unfold mixedSepDateForm
  split
  · next d1 d2 s1 m1 m2 s2 y1 y2 y3 y4 =>
    unfold yyyyMmDdTest at h
    simp only [Bool.and_eq_true, beq_iff_eq] at h
    apply Bool.eq_false_iff.2
    intro hm
    simp only [Bool.and_eq_true, Bool.or_eq_true, beq_iff_eq] at hm
    have hdig : s1.isDigit = true := by tauto
    have hsep : s1 = '/' ∨ s1 = '-' := by tauto
    rcases hsep with rfl | rfl <;> exact absurd hdig (by decide)
  · rfl

/-- The date conversion in closed form. -/
theorem formatDateForMonday_eq (cs : List Char) :
    formatDateForMonday cs =
      if mixedSepDateForm cs then reorderDate cs else cs := by
  cases cs with
  | nil => rfl
  | cons c rest =>
    unfold formatDateForMonday
    rw [ddMmYyyyMatch_eq]
    by_cases hform : mixedSepDateForm (c :: rest)
    · rw [if_pos hform, if_pos hform]
      rfl
    · rw [if_neg hform, if_neg hform]
      show (if yyyyMmDdTest (c :: rest) = true then c :: rest
        else c :: rest) = c :: rest
      split <;> rfl

/-- Claim C8, counterexample: the claim says every string other than the
`DD/MM/YYYY`, `DD-MM-YYYY` and `YYYY-MM-DD` forms passes through unchanged,
but the code regex also accepts mixed separators: `12/11-2023` matches none
of the three claimed forms yet is reordered. -/
theorem C8_counterexample :
    specSlashDateForm
        ['1', '2', '/', '1', '1', '-', '2', '0', '2', '3'] = false ∧
    specDashDateForm
        ['1', '2', '/', '1', '1', '-', '2', '0', '2', '3'] = false ∧
    yyyyMmDdTest ['1', '2', '/', '1', '1', '-', '2', '0', '2', '3'] = false ∧
    formatDateForMonday ['1', '2', '/', '1', '1', '-', '2', '0', '2', '3'] ≠
      ['1', '2', '/', '1', '1', '-', '2', '0', '2', '3'] := by
  decide

/-- Claim C8, amended: `toStorageDate` reorders to `YYYY-MM-DD` every string
of the day-month-year shape whose two separators are each, independently, a
slash or a dash (this includes `DD/MM/YYYY` and `DD-MM-YYYY` but also the two
mixed forms); a string already matching `YYYY-MM-DD` is returned unchanged;
every other string is returned unchanged; the function is total and never
fails. -/
theorem C8_storage_date (cs : List Char) :
    (mixedSepDateForm cs = true → formatDateForMonday cs = reorderDate cs) ∧
    (yyyyMmDdTest cs = true → formatDateForMonday cs = cs) ∧
    (mixedSepDateForm cs = false → formatDateForMonday cs = cs) := by
  refine ⟨?_, ?_, ?_⟩
  · intro h
    rw [formatDateForMonday_eq, if_pos h]
  · intro h
    rw [formatDateForMonday_eq, if_neg (by simp [yyyy_not_mixed h])]
  · intro h
    rw [formatDateForMonday_eq, if_neg (by simp [h])]

/-- Claim C8, witness: the amended theorem applied to the concrete dates
`01/02/2023` (reordered) and `2023-02-01` (unchanged). -/
theorem C8_witness :
    formatDateForMonday
        ['0', '1', '/', '0', '2', '/', '2', '0', '2', '3'] =
      reorderDate ['0', '1', '/', '0', '2', '/', '2', '0', '2', '3'] ∧
    formatDateForMonday
        ['2', '0', '2', '3', '-', '0', '2', '-', '0', '1'] =
      ['2', '0', '2', '3', '-', '0', '2', '-', '0', '1'] :=
  ⟨(C8_storage_date
      ['0', '1', '/', '0', '2', '/', '2', '0', '2', '3']).1 (by decide),
   (C8_storage_date
      ['2', '0', '2', '3', '-', '0', '2', '-', '0', '1']).2.1 (by decide)⟩

end TDA
namespace TDA

/-! ## Claim C4: the override policy of the merger -/

/-- Claim C4, counterexample: the claim defines a missing value only by the
three sentinel strings, but the code also treats the empty string as
missing (`if (!v) return true`).  With base `Decking = Ply` and overlay
`Decking = ""` the claim predicts an override (the empty string is not
claim-missing and differs from `ply`), yet the merger keeps the base value
and its board tag. -/
theorem C4_counterexample :
    specMissing "" = false ∧
    clean (some "") ≠ clean (getVal [("Decking", "Ply")] "Decking") ∧
    getVal (mergeParameters [("Decking", "Ply")]
      (some [("Decking", "")])).1 "Decking" = some "Ply" ∧
    getVal (mergeParameters [("Decking", "Ply")]
      (some [("Decking", "")])).2 "Decking" = some Source.mondayCRM := by
  decide

/-- Claim C4, amended: as claimed, with the missing-value test extended by
the empty string: a value is missing when it is empty or its lowercased,
trimmed form is one of `not found`, `not provided`,
`to be assigned by taperedplus`.  For every base, overlay with
duplicate-free keys, and overridable key appearing in the overlay, the
overlay value replaces the base value with tag `EmailContent` exactly when
(the key is the email subject and the value is not missing) or (the value
is not missing and its cleaned form differs from the cleaned base value);
otherwise the base value and its `ExternalBoard` tag are retained (an
absent base key stays absent and untagged). -/
theorem C4_override_policy (base email : ParamSet) (k v : String)
    (he : (keys email).Nodup) (hk : k ∈ overridableParameters)
    (hv : (k, v) ∈ email) :
    ((k = "Email Subject" ∧ isMissing (some v) = false) ∨
        (isMissing (some v) = false ∧
          clean (some v) ≠ clean (getVal base k)) →
      getVal (mergeParameters base (some email)).1 k = some v ∧
      getVal (mergeParameters base (some email)).2 k =
        some Source.emailContent) ∧
    (¬ ((k = "Email Subject" ∧ isMissing (some v) = false) ∨
        (isMissing (some v) = false ∧
          clean (some v) ≠ clean (getVal base k))) →
      getVal (mergeParameters base (some email)).1 k = getVal base k ∧
      getVal (mergeParameters base (some email)).2 k =
        (getVal base k).map (fun _ => Source.mondayCRM)) := by
  have hmain := foldl_mergeStep_getVal_mem base k v email he hv
    (base, initialSources base)
  have hwin : winCond base k v ↔
      ((k = "Email Subject" ∧ isMissing (some v) = false) ∨
        (isMissing (some v) = false ∧
          clean (some v) ≠ clean (getVal base k))) := by
    unfold winCond
    constructor
    · rintro ⟨-, h | h⟩
      · exact Or.inl h
      · exact Or.inr ⟨h.2.1, h.2.2⟩
    · intro h
      refine ⟨hk, ?_⟩
      by_cases hs : k = "Email Subject"
      · rcases h with h | h
        · exact Or.inl h
        · exact Or.inl ⟨hs, h.1⟩
      · rcases h with h | h
        · exact absurd h.1 hs
        · exact Or.inr ⟨hs, h.1, h.2⟩
  constructor
  · intro h
    exact hmain.1 (hwin.2 h)
  · intro h
    have hpres := hmain.2 (fun hw => h (hwin.1 hw))
    refine ⟨hpres.1, hpres.2.trans ?_⟩
    rw [getVal_initialSources]
    by_cases hmem : k ∈ keys base
    · obtain ⟨w, hw⟩ := getVal_isSome_of_mem base k hmem
      rw [if_pos hmem, hw]
      rfl
    · rw [if_neg hmem, ((getVal_eq_none_iff base k).2 hmem)]
      rfl

/-- Claim C4, witness: a differing non-missing overlay value wins; the
amended theorem applied to base `Decking = Ply`, overlay `Decking = Metal`. -/
theorem C4_witness :
    getVal (mergeParameters [("Decking", "Ply")]
      (some [("Decking", "Metal")])).1 "Decking" = some "Metal" ∧
    getVal (mergeParameters [("Decking", "Ply")]
      (some [("Decking", "Metal")])).2 "Decking" =
        some Source.emailContent :=
  (C4_override_policy [("Decking", "Ply")] [("Decking", "Metal")]
    "Decking" "Metal" (by decide) (by decide) (by decide)).1
    (Or.inr ⟨by decide, by decide⟩)

/-! ## Claim C5: exactly one provenance tag per merged key -/

/-- Claim C5: for every base set and overlay, every key of the merged output
carries exactly one provenance tag, and no key is tagged more than once. -/
theorem C5_provenance_exactly_one (base : ParamSet)
    (email : Option ParamSet) :
    (∀ k, k ∈ keys (mergeParameters base email).1 →
      (keys (mergeParameters base email).2).count k = 1) ∧
    (∀ k, (keys (mergeParameters base email).2).count k ≤ 1) := by
  have hinv : (∀ x, x ∈ keys (mergeParameters base email).1 ↔
      x ∈ keys (mergeParameters base email).2) ∧
      (keys (mergeParameters base email).2).Nodup := by
    cases email with
    | none =>
      exact ⟨fun x => (mem_keys_initialSources base x).symm,
        keys_nodup_initialSources base⟩
    | some em =>
      have hstep : ∀ (acc : ParamSet × SourceMap) (e : String × String),
          ((∀ x, x ∈ keys acc.1 ↔ x ∈ keys acc.2) ∧ (keys acc.2).Nodup) →
          ((∀ x, x ∈ keys (mergeStep base acc e).1 ↔
              x ∈ keys (mergeStep base acc e).2) ∧
            (keys (mergeStep base acc e).2).Nodup) := by
        intro acc e h
        rw [mergeStep_eq]
        split
        · exact ⟨fun x => by
            rw [mem_keys_objSet, mem_keys_objSet, h.1 x],
            keys_nodup_objSet _ _ _ h.2⟩
        · exact h
      exact foldl_preserve (mergeStep base) hstep em
        (base, initialSources base)
        ⟨fun x => (mem_keys_initialSources base x).symm,
         keys_nodup_initialSources base⟩
  constructor
  · intro k hk
    exact List.count_eq_one_of_mem hinv.2 ((hinv.1 k).1 hk)
  · intro k
    exact List.nodup_iff_count_le_one.1 hinv.2 k

/-- Claim C5, witness: the theorem applied to a concrete base and overlay. -/
theorem C5_witness :
    (keys (mergeParameters [("Post Code", "AB1")]
      (some [("Decking", "Metal")])).2).count "Decking" = 1 :=
  (C5_provenance_exactly_one [("Post Code", "AB1")]
    (some [("Decking", "Metal")])).1 "Decking" (by decide)

/-! ## Claim C6: merge with an absent overlay -/

/-- Claim C6: merging with an absent overlay returns the base set unchanged,
with exactly the base keys in the provenance map, each tagged
`ExternalBoard`. -/
theorem C6_null_overlay (base : ParamSet) :
    (mergeParameters base none).1 = base ∧
    (∀ k, k ∈ keys (mergeParameters base none).2 ↔ k ∈ keys base) ∧
    (∀ k, k ∈ keys base →
      getVal (mergeParameters base none).2 k = some Source.mondayCRM) := by
  refine ⟨rfl, fun k => mem_keys_initialSources base k, fun k hk => ?_⟩
  rw [show (mergeParameters base none).2 = initialSources base from rfl,
    getVal_initialSources]
  simp [hk]

/-- Claim C6, witness: the theorem applied to a concrete base. -/
theorem C6_witness :
    getVal (mergeParameters [("Post Code", "AB1")] none).2 "Post Code" =
      some Source.mondayCRM :=
  (C6_null_overlay [("Post Code", "AB1")]).2.2 "Post Code" (by decide)

/-! ## Claim C7: non-overridable fields are never overridden -/

/-- Claim C7: every base key outside the overridable field list keeps its
base value and its `ExternalBoard` tag in the merged output, whatever the
overlay holds. -/
theorem C7_frame (base : ParamSet) (email : Option ParamSet) (k : String)
    (h1 : k ∈ keys base) (h2 : k ∉ overridableParameters) :
    getVal (mergeParameters base email).1 k = getVal base k ∧
    getVal (mergeParameters base email).2 k = some Source.mondayCRM :=
  merge_frame base email k h1 h2

/-- Claim C7, witness: the board-assigned reference field is kept even when
the overlay holds a different value for it. -/
theorem C7_witness :
    getVal (mergeParameters [("Project Name", "Alpha")]
      (some [("Project Name", "Beta")])).1 "Project Name" = some "Alpha" ∧
    getVal (mergeParameters [("Project Name", "Alpha")]
      (some [("Project Name", "Beta")])).2 "Project Name" =
        some Source.mondayCRM :=
  C7_frame [("Project Name", "Alpha")] (some [("Project Name", "Beta")])
    "Project Name" (by decide) (by decide)

/-! ## Claim C10: overlay keys absent from the base -/

/-- Claim C10: a key of the overlay absent from the base is added to the
merged output with tag `EmailContent` exactly when it is overridable and its
value is not missing, and the merged key set is the base keys united with
those winning overlay keys. -/
theorem C10_new_keys (base email : ParamSet)
    (he : (keys email).Nodup) :
    (∀ k v, (k, v) ∈ email → k ∉ keys base →
      k ∈ overridableParameters → isMissing (some v) = false →
      getVal (mergeParameters base (some email)).1 k = some v ∧
      getVal (mergeParameters base (some email)).2 k =
        some Source.emailContent) ∧
    (∀ k, k ∈ keys (mergeParameters base (some email)).1 ↔
      (k ∈ keys base ∨ (k ∈ overridableParameters ∧
        ∃ v, (k, v) ∈ email ∧ isMissing (some v) = false))) := by
  have hbase_none : ∀ k : String, k ∉ keys base → clean (getVal base k) = none := by
    intro k hk
    rw [(getVal_eq_none_iff base k).2 hk]
    rfl
  have hwin_of : ∀ k v : String, k ∉ keys base → k ∈ overridableParameters →
      isMissing (some v) = false → winCond base k v := by
    intro k v hk hov hmiss
    refine ⟨hov, ?_⟩
    by_cases hs : k = "Email Subject"
    · exact Or.inl ⟨hs, hmiss⟩
    · refine Or.inr ⟨hs, hmiss, ?_⟩
      rw [hbase_none k hk]
      simp [clean]
  constructor
  · intro k v hv hk hov hmiss
    exact (foldl_mergeStep_getVal_mem base k v email he hv
      (base, initialSources base)).1 (hwin_of k v hk hov hmiss)
  · intro k
    rw [show (mergeParameters base (some email)).1 =
      (email.foldl (mergeStep base) (base, initialSources base)).1 from rfl,
      foldl_mergeStep_mem_keys]
    constructor
    · rintro (h | ⟨v, hv, hw⟩)
      · exact Or.inl h
      · by_cases hk : k ∈ keys base
        · exact Or.inl hk
        · refine Or.inr ⟨hw.1, v, hv, ?_⟩
          rcases hw.2 with h1 | h1
          · exact h1.2
          · exact h1.2.1
    · rintro (h | ⟨hov, v, hv, hmiss⟩)
      · exact Or.inl h
      · by_cases hk : k ∈ keys base
        · exact Or.inl hk
        · exact Or.inr ⟨v, hv, hwin_of k v hk hov hmiss⟩

/-- Claim C10, witness: an overridable key absent from the base is added
from the overlay with the email tag. -/
theorem C10_witness :
    getVal (mergeParameters [("Post Code", "AB1")]
      (some [("Decking", "Metal")])).1 "Decking" = some "Metal" ∧
    getVal (mergeParameters [("Post Code", "AB1")]
      (some [("Decking", "Metal")])).2 "Decking" =
        some Source.emailContent :=
  (C10_new_keys [("Post Code", "AB1")] [("Decking", "Metal")]
    (by decide)).1 "Decking" "Metal" (by decide) (by decide) (by decide)
    (by decide)

end TDA
namespace TDA

/-! ## Claim C2: the forced business-rule fields -/

/-- Claim C2, counterexample: the claim says `"Reason for Change"` is tagged
`BusinessRule` in the NewEnquiry path, but the source map built there tags
only `"Drawing Reference"` and `"Revision"` as `'Business Rule'` and tags
everything else, `"Reason for Change"` included, as `'Email Content'`. -/
theorem C2_counterexample :
    getVal (handleFileUploadNew []).2 "Reason for Change" =
      some Source.emailContent ∧
    getVal (handleFileUploadNew []).2 "Reason for Change" ≠
      some Source.businessRule := by
  decide

/-- Claim C2, amended: in the NewEnquiry path `"Reason for Change"` is
forced to `"New Enquiry"` but tagged `EmailContent` (not `BusinessRule`),
while `"Drawing Reference"` and `"Revision"` are forced to the deferral
sentinel and tagged `BusinessRule`; in the Amendment path
`"Reason for Change"` is forced to `"Amendment"` and tagged `ExternalBoard`
(`'Monday CRM'`), not `BusinessRule`. -/
theorem C2_forced_fields (initialParams boardParams : ParamSet)
    (emailParams : Option ParamSet) :
    getVal (handleFileUploadNew initialParams).1 "Reason for Change" =
      some "New Enquiry" ∧
    getVal (handleFileUploadNew initialParams).2 "Reason for Change" =
      some Source.emailContent ∧
    getVal (handleFileUploadNew initialParams).1 "Drawing Reference" =
      some taperedplusAssignmentText ∧
    getVal (handleFileUploadNew initialParams).2 "Drawing Reference" =
      some Source.businessRule ∧
    getVal (handleFileUploadNew initialParams).1 "Revision" =
      some taperedplusAssignmentText ∧
    getVal (handleFileUploadNew initialParams).2 "Revision" =
      some Source.businessRule ∧
    getVal (handleProjectSelectedAmendment boardParams emailParams).1
      "Reason for Change" = some "Amendment" ∧
    getVal (handleProjectSelectedAmendment boardParams emailParams).2
      "Reason for Change" = some Source.mondayCRM := by
  have hmem_rfc : "Reason for Change" ∈ keys (newEnquiryDefaults initialParams) := by
    unfold newEnquiryDefaults
    rw [mem_keys_objSet, mem_keys_objSet, mem_keys_objSet]
    tauto
  have hmem_dr : "Drawing Reference" ∈ keys (newEnquiryDefaults initialParams) := by
    unfold newEnquiryDefaults
    rw [mem_keys_objSet, mem_keys_objSet]
    tauto
  have hmem_rev : "Revision" ∈ keys (newEnquiryDefaults initialParams) := by
    unfold newEnquiryDefaults
    rw [mem_keys_objSet]
    tauto
  have hsrc : ∀ x : String, x ∈ keys (newEnquiryDefaults initialParams) →
      getVal (newEnquirySources (newEnquiryDefaults initialParams)) x =
        some (newEnquirySourceTag x) := by
    intro x hx
    unfold newEnquirySources
    rw [getVal_foldl_objSet newEnquirySourceTag _ [] x, if_pos hx]
  refine ⟨?_, ?_, ?_, ?_, ?_, ?_, ?_, ?_⟩
  · show getVal (newEnquiryDefaults initialParams) "Reason for Change" =
      some "New Enquiry"
    unfold newEnquiryDefaults
    rw [getVal_objSet_ne _ _ _ _ (by decide),
      getVal_objSet_ne _ _ _ _ (by decide), getVal_objSet_self]
  · show getVal (newEnquirySources (newEnquiryDefaults initialParams))
      "Reason for Change" = some Source.emailContent
    rw [hsrc _ hmem_rfc]
    rfl
  · show getVal (newEnquiryDefaults initialParams) "Drawing Reference" =
      some taperedplusAssignmentText
    unfold newEnquiryDefaults
    rw [getVal_objSet_ne _ _ _ _ (by decide), getVal_objSet_self]
  · show getVal (newEnquirySources (newEnquiryDefaults initialParams))
      "Drawing Reference" = some Source.businessRule
    rw [hsrc _ hmem_dr]
    rfl
  · show getVal (newEnquiryDefaults initialParams) "Revision" =
      some taperedplusAssignmentText
    unfold newEnquiryDefaults
    rw [getVal_objSet_self]
  · show getVal (newEnquirySources (newEnquiryDefaults initialParams))
      "Revision" = some Source.businessRule
    rw [hsrc _ hmem_rev]
    rfl
  · have hframe := merge_frame
      (objSet boardParams "Reason for Change" "Amendment") emailParams
      "Reason for Change"
      ((mem_keys_objSet _ _ _ _).2 (Or.inr rfl)) (by decide)
    exact hframe.1.trans (getVal_objSet_self _ _ _)
  · exact (merge_frame
      (objSet boardParams "Reason for Change" "Amendment") emailParams
      "Reason for Change"
      ((mem_keys_objSet _ _ _ _).2 (Or.inr rfl)) (by decide)).2

end TDA
namespace TDA

/-! ## Claim C3: the derived drawing-reference record of the projection -/

theorem baseValidatable_key_ne (p : ParamSet) (t : Option String) :
    ∀ r ∈ baseValidatable p t, r.key ≠ "Drawing Reference" := by
  intro r hr
  simp only [baseValidatable, List.mem_cons, List.not_mem_nil,
    or_false] at hr
  rcases hr with rfl | rfl | rfl | rfl <;> simp

/-- On an absent or empty drawing reference the derived TP Ref is empty. -/
theorem tpRefOf_empty (p : ParamSet)
    (h : (getVal p "Drawing Reference").getD "" = "") : tpRefOf p = "" := by
  unfold tpRefOf
  rw [h]
  rfl

/-- Claim C3: the projection holds a drawing-reference record exactly when
the classification is Amendment and the drawing reference of the merged set,
normalized and truncated at the first underscore, is non-empty and differs
from the missing-value sentinels; such a record carries the truncated value
and is never editable; under the NewEnquiry classification no
drawing-reference record exists. -/
theorem C3_projection (p : ParamSet) (t : Option String) :
    ((∃ r ∈ buildValidatableParams p t, r.key = "Drawing Reference") ↔
      (t = some "Amendment" ∧ tpRefOf p ≠ "" ∧
        tpRefOf p ≠ "Not provided" ∧ tpRefOf p ≠ "Not found")) ∧
    (∀ r ∈ buildValidatableParams p t, r.key = "Drawing Reference" →
      r.value = tpRefOf p ∧ r.editable = false) ∧
    (t = some "New Enquiry" →
      ∀ r ∈ buildValidatableParams p t, r.key ≠ "Drawing Reference") := by
  unfold buildValidatableParams
  by_cases hg1 : t = some "Amendment" ∧
      (getVal p "Drawing Reference").getD "" ≠ ""
  · rw [if_pos hg1]
    by_cases hg2 : tpRefOf p ≠ "" ∧ tpRefOf p ≠ "Not provided" ∧
        tpRefOf p ≠ "Not found"
    · rw [if_pos hg2]
      refine ⟨⟨fun _ => ⟨hg1.1, hg2⟩, fun _ => ?_⟩, ?_, ?_⟩
      · exact ⟨⟨"Drawing Reference", "TP Ref", tpRefOf p,
          mondayColumnMapping "Drawing Reference", false⟩,
          List.mem_append_right _ (List.mem_singleton.2 rfl), rfl⟩
      · intro r hr hkey
        rcases List.mem_append.1 hr with hb | hb
        · exact absurd hkey (baseValidatable_key_ne p t r hb)
        · rw [List.mem_singleton.1 hb]
          exact ⟨rfl, rfl⟩
      · intro ht
        rw [hg1.1] at ht
        exact absurd ht (by decide)
    · rw [if_neg hg2]
      refine ⟨⟨fun hex => ?_, fun hrhs => absurd hrhs.2 hg2⟩, ?_, ?_⟩
      · obtain ⟨r, hr, hkey⟩ := hex
        exact absurd hkey (baseValidatable_key_ne p t r hr)
      · intro r hr hkey
        exact absurd hkey (baseValidatable_key_ne p t r hr)
      · intro _ r hr
        exact baseValidatable_key_ne p t r hr
  · rw [if_neg hg1]
    refine ⟨⟨fun hex => ?_, fun hrhs => ?_⟩, ?_, ?_⟩
    · obtain ⟨r, hr, hkey⟩ := hex
      exact absurd hkey (baseValidatable_key_ne p t r hr)
    · exfalso
      apply hg1
      refine ⟨hrhs.1, fun hraw => ?_⟩
      exact hrhs.2.1 (tpRefOf_empty p hraw)
    · intro r hr hkey
      exact absurd hkey (baseValidatable_key_ne p t r hr)
    · intro _ r hr
      exact baseValidatable_key_ne p t r hr

/-- Claim C3, witness: with classification Amendment and merged drawing
reference `1234_rev2` the projection holds the derived record with value
`1234`, not editable. -/
theorem C3_witness :
    (∃ r ∈ buildValidatableParams [("Drawing Reference", "1234_rev2")]
      (some "Amendment"), r.key = "Drawing Reference") ∧
    tpRefOf [("Drawing Reference", "1234_rev2")] = "1234" :=
  ⟨(C3_projection [("Drawing Reference", "1234_rev2")]
      (some "Amendment")).1.mpr
    ⟨rfl, by decide, by decide, by decide⟩, by decide⟩

end TDA
